import Mathlib

/-!
Verification of the PDF ingestion pipeline of the Queryforge repository
(src/ingest_pdf.py): text extraction, the sliding-window word chunker, and
the batched upsert into the vector store.  Strings are embedded as lists of
characters; Python word splitting (str.split with no arguments) and single
space joining are modelled explicitly; the vector store is modelled as an
association list from record id to the stored record, with upsert replacing
records in place by id.
-/

/-! ## Word splitting and joining

`pySplit` models Python str.split() with no arguments: split on runs of
whitespace, dropping empty pieces.  `joinWords` models " ".join(ws). -/

def isSpace (c : Char) : Bool := c.isWhitespace

def pySplitAux : List Char → List Char → List (List Char)
  | [], acc => if acc = [] then [] else [acc.reverse]
  | c :: cs, acc =>
      if isSpace c then
        if acc = [] then pySplitAux cs []
        else acc.reverse :: pySplitAux cs []
      else pySplitAux cs (c :: acc)

def pySplit (s : List Char) : List (List Char) := pySplitAux s []

def joinWords : List (List Char) → List Char
  | [] => []
  | [w] => w
  | w :: x :: ws => w ++ ' ' :: joinWords (x :: ws)

/-- Model of re.sub(r"\s+", " ", text).strip() used by extract_text
(src/ingest_pdf.py line 53): collapsing whitespace runs to single spaces and
trimming is the same as splitting into words and rejoining with single
spaces. -/
def normalizeWs (l : List Char) : List Char := joinWords (pySplit l)

/-! ## Data model -/

/-- A page record as produced by extract_text: {"page": i + 1, "text": text}. -/
structure PageRec where
  page : Nat
  text : List Char
deriving DecidableEq

/-- A chunk dict as built by chunk_text (src/ingest_pdf.py lines 85-92). -/
structure Chunk where
  chunk_id : List Char
  text : List Char
  page : Nat
  chunk_index : Nat
  word_start : Nat
  word_end : Nat
deriving DecidableEq

/-- The id format string f"p{page_num}_c{chunk_idx}" (line 86). -/
def chunkId (pg idx : Nat) : List Char :=
  'p' :: (Nat.toDigits 10 pg ++ '_' :: 'c' :: Nat.toDigits 10 idx)

/-! ## The sliding-window chunker

`chunkLoop` embeds the inner while loop of chunk_text (lines 81-97).  The
Python loop has no fuel; it terminates in at most `words.length` iterations
whenever `overlap < chunk_size` (proved below), which is the fuel chunk_text
passes.  The fuel parameter lets us also reason about the non-termination
that occurs when `chunk_size - overlap <= 0`. -/

def chunkLoop (cs ov : Nat) (words : List (List Char)) (pg : Nat) :
    Nat → Nat → Nat → List Chunk × Nat
  | 0, _, idx => ([], idx)
  | fuel + 1, start, idx =>
      if start < words.length then
        let e := min (start + cs) words.length
        let c : Chunk :=
          ⟨chunkId pg idx, joinWords ((words.drop start).take (e - start)),
            pg, idx, start, e⟩
        if e = words.length then ([c], idx + 1)
        else
          let r := chunkLoop cs ov words pg fuel (start + (cs - ov)) (idx + 1)
          (c :: r.1, r.2)
      else ([], idx)

/-- The outer for loop of chunk_text (lines 76-97): pages processed in order,
threading the global chunk_idx counter. -/
def chunkPages (cs ov : Nat) : List PageRec → Nat → List Chunk × Nat
  | [], idx => ([], idx)
  | p :: ps, idx =>
      let words := pySplit p.text
      let r := chunkLoop cs ov words p.page words.length 0 idx
      let rest := chunkPages cs ov ps r.2
      (r.1 ++ rest.1, rest.2)

/-- chunk_text (src/ingest_pdf.py lines 63-99). -/
def chunk_text (pages : List PageRec) (cs ov : Nat) : List Chunk :=
  (chunkPages cs ov pages 0).1

/-- The chunk list one page contributes, at a given incoming value of the
global counter: exactly the inner loop run from start = 0. -/
def pageChunks (cs ov : Nat) (p : PageRec) (idx : Nat) : List Chunk :=
  (chunkLoop cs ov (pySplit p.text) p.page (pySplit p.text).length 0 idx).1

/-- Size of the intersection of the half-open ranges
[c.word_start, c.word_end) and [d.word_start, d.word_end). -/
def interOverlap (c d : Chunk) : Nat :=
  min c.word_end d.word_end - max c.word_start d.word_start

/-! ## The store writer -/

/-- The metadata dict stored with each record (lines 129-138). -/
structure Meta where
  page : Nat
  chunk_index : Nat
  word_start : Nat
  word_end : Nat
  source : List Char
deriving DecidableEq

/-- A stored record: embedding vector, document text and metadata, as kept by
the collection for one id. -/
structure StoredRec where
  embedding : List Int
  document : List Char
  metadata : Meta
deriving DecidableEq

/-- The collection state: association list from record id to stored record. -/
abbrev Store := List (List Char × StoredRec)

/-- The parallel lists ids / documents / metadatas of embed_and_store
(lines 127-138), zipped into one record list; the embedding function is the
configured model applied to the chunk text. -/
def recordsOf (emb : List Char → List Int) (source : List Char)
    (chunks : List Chunk) : List (List Char × StoredRec) :=
  chunks.map fun c =>
    (c.chunk_id,
      ⟨emb c.text, c.text, ⟨c.page, c.chunk_index, c.word_start, c.word_end, source⟩⟩)

/-- Upsert of a single record by id: if the id exists its record is replaced,
otherwise the record is appended. -/
def upsertOne (store : Store) (r : List Char × StoredRec) : Store :=
  if store.any (fun q => decide (q.1 = r.1)) then
    store.map (fun q => if q.1 = r.1 then r else q)
  else store ++ [r]

/-- collection.upsert over one batch: each record of the batch upserted in
order. -/
def upsertBatch (store : Store) (recs : List (List Char × StoredRec)) : Store :=
  recs.foldl upsertOne store

/-- The slicing ids[i : i + 128] of the batched upsert loop (lines 140-148):
the record list cut into groups of 128 in order. -/
def toBatches128 {α : Type} : List α → List (List α)
  | [] => []
  | a :: t => (a :: t).take 128 :: toBatches128 ((a :: t).drop 128)
termination_by l => l.length
decreasing_by
  simp only [List.length_drop, List.length_cons]
  omega

/-- embed_and_store (lines 108-158), restricted to its effect on the
collection state: upsert the records batch by batch, 128 at a time. -/
def embed_and_store (emb : List Char → List Int) (store : Store)
    (chunks : List Chunk) (source : List Char) : Store :=
  (toBatches128 (recordsOf emb source chunks)).foldl upsertBatch store

/-! ## Extraction and CLI entry -/

/-- Outcome of the PdfReader collaborator: either the raw per-page texts, or
an exception raised by the library (bad path handed to it, corrupt or
unsupported file). -/
inductive PdfReadResult where
  | ok : List (List Char) → PdfReadResult
  | libError : List Char → PdfReadResult
deriving DecidableEq

/-- extract_text (src/ingest_pdf.py lines 47-56).  There is no try/except in
the function: a library exception propagates to the caller unchanged (the
code defines no error class of its own).  On success each page text is
whitespace-normalized, pages are numbered i + 1 in order, and pages whose
normalized text is empty are dropped. -/
def extract_text (r : PdfReadResult) : Except (List Char) (List PageRec) :=
  match r with
  | .libError e => .error e
  | .ok texts =>
      .ok (((texts.enum).map
            (fun it => PageRec.mk (it.1 + 1) (normalizeWs it.2))).filter
        (fun p => !p.text.isEmpty))

/-- What main does before calling the pipeline. -/
inductive CliOutcome where
  | exitError : List Char → CliOutcome
  | proceeds : CliOutcome
deriving DecidableEq

/-- The pre-processing checks of main (src/ingest_pdf.py lines 173-184): the
only validation before extraction and chunking is path existence; the parsed
chunk_size and overlap values are passed through to chunk_text without being
inspected. -/
def mainPrecheck (pathExists : Bool) (path : List Char)
    (chunk_size ov : Int) : CliOutcome :=
  if pathExists then CliOutcome.proceeds
  else CliOutcome.exitError (("[ingest] File not found: ").toList ++ path)

/-! ## Concrete inputs used by witnesses and counterexamples -/

/-- A page whose text splits into three words. -/
def demoPage3 : PageRec := ⟨1, ['a', ' ', 'b', ' ', 'c']⟩

/-- A page whose text splits into seven words. -/
def demoPage7 : PageRec := ⟨1, ['a', ' ', 'b', ' ', 'c', ' ', 'd', ' ', 'e', ' ', 'f', ' ', 'g']⟩

/-! ## Basic facts about the windowing loop -/

/-- Each loop iteration consumes one unit of fuel, so at most `fuel` chunks
come out. -/
theorem chunkLoop_length_le (cs ov : Nat) (words : List (List Char)) (pg : Nat) :
    ∀ fuel start idx, ((chunkLoop cs ov words pg fuel start idx).1).length ≤ fuel := by
  intro fuel
  induction fuel with
  | zero => intro start idx; simp [chunkLoop]
  | succ f ih =>
    intro start idx
    simp only [chunkLoop]
    split
    · split
      · simp
      · simpa using Nat.succ_le_succ (ih _ _)
    · simp

/-- Fuel sufficiency: when the step `cs - ov` is positive, the loop reaches
its exit within `words.length - start` iterations, so any further fuel does
not change the result. -/
theorem chunkLoop_fuel_add (cs ov : Nat) (words : List (List Char)) (pg : Nat)
    (hcs : ov < cs) :
    ∀ fuel start idx, words.length - start ≤ fuel → ∀ extra,
      chunkLoop cs ov words pg (fuel + extra) start idx
        = chunkLoop cs ov words pg fuel start idx := by
  intro fuel
  induction fuel with
  | zero =>
    intro start idx hle extra
    have hns : ¬ start < words.length := by omega
    cases extra with
    | zero => rfl
    | succ e =>
      have h1 : 0 + (e + 1) = e + 1 := by omega
      rw [h1]
      simp [chunkLoop, hns]
  | succ f ih =>
    intro start idx hle extra
    have hseq : f + 1 + extra = (f + extra) + 1 := by omega
    rw [hseq]
    by_cases h : start < words.length
    · by_cases he : min (start + cs) words.length = words.length
      · simp [chunkLoop, h, he]
      · have h1 : words.length - (start + (cs - ov)) ≤ f := by omega
        simp only [chunkLoop, h, if_true, he, if_false]
        rw [ih _ _ h1]
    · simp [chunkLoop, h]

/-- Every emitted chunk has the shape built at lines 85-92: tagged with the
page number, id formatted from page and index, and the window
`[word_start, word_end)` with `word_end = min (word_start + cs) n` and text
the joined word slice. -/
theorem chunkLoop_shape (cs ov : Nat) (words : List (List Char)) (pg : Nat) :
    ∀ fuel start idx c, c ∈ (chunkLoop cs ov words pg fuel start idx).1 →
      c.page = pg ∧ c.chunk_id = chunkId pg c.chunk_index
      ∧ c.word_start < words.length
      ∧ c.word_end = min (c.word_start + cs) words.length
      ∧ c.text = joinWords ((words.drop c.word_start).take (c.word_end - c.word_start)) := by
  intro fuel
  induction fuel with
  | zero => intro start idx c hc; simp [chunkLoop] at hc
  | succ f ih =>
    intro start idx c hc
    simp only [chunkLoop] at hc
    split at hc
    next h =>
      split at hc
      next he =>
        simp at hc
        subst hc
        exact ⟨rfl, rfl, h, rfl, rfl⟩
      next he =>
        simp at hc
        rcases hc with hc | hc
        · subst hc
          exact ⟨rfl, rfl, h, rfl, rfl⟩
        · exact ih _ _ c hc
    next h => simp at hc

/-- The returned counter is the incoming counter plus the number of chunks
emitted (the counter is incremented once per appended chunk). -/
theorem chunkLoop_snd (cs ov : Nat) (words : List (List Char)) (pg : Nat) :
    ∀ fuel start idx, (chunkLoop cs ov words pg fuel start idx).2
      = idx + ((chunkLoop cs ov words pg fuel start idx).1).length := by
  intro fuel
  induction fuel with
  | zero => intro start idx; simp [chunkLoop]
  | succ f ih =>
    intro start idx
    simp only [chunkLoop]
    split
    · split
      · simp
      · simp only [List.length_cons]
        rw [ih]
        omega
    · simp

/-- The i-th chunk a loop run emits carries chunk_index `idx + i`. -/
theorem chunkLoop_index (cs ov : Nat) (words : List (List Char)) (pg : Nat) :
    ∀ fuel start idx i c,
      ((chunkLoop cs ov words pg fuel start idx).1).get? i = some c →
      c.chunk_index = idx + i := by
  intro fuel
  induction fuel with
  | zero => intro start idx i c hc; simp [chunkLoop] at hc
  | succ f ih =>
    intro start idx i c hc
    simp only [chunkLoop] at hc
    split at hc
    next h =>
      split at hc
      next he =>
        cases i with
        | zero => simp at hc; subst hc; rfl
        | succ j => simp at hc
      next he =>
        cases i with
        | zero => simp at hc; subst hc; rfl
        | succ j =>
          simp only [List.get?_cons_succ] at hc
          have := ih _ _ j c hc
          omega
    next h => simp at hc

/-! ## Facts about the page loop -/

/-- The counter after processing a page list equals the incoming counter plus
the total number of chunks emitted. -/
theorem chunkPages_snd (cs ov : Nat) :
    ∀ pages idx, (chunkPages cs ov pages idx).2
      = idx + ((chunkPages cs ov pages idx).1).length := by
  intro pages
  induction pages with
  | nil => intro idx; simp [chunkPages]
  | cons p ps ih =>
    intro idx
    simp only [chunkPages, List.length_append]
    rw [ih, chunkLoop_snd]
    omega

/-- The i-th chunk of the whole document run carries chunk_index `idx + i`:
the counter never resets at page boundaries. -/
theorem chunkPages_index (cs ov : Nat) :
    ∀ pages idx i c,
      ((chunkPages cs ov pages idx).1).get? i = some c → c.chunk_index = idx + i := by
  intro pages
  induction pages with
  | nil => intro idx i c hc; simp [chunkPages] at hc
  | cons p ps ih =>
    intro idx i c hc
    simp only [chunkPages] at hc
    by_cases hi : i < ((chunkLoop cs ov (pySplit p.text) p.page (pySplit p.text).length 0 idx).1).length
    · rw [List.get?_append hi] at hc
      exact chunkLoop_index cs ov (pySplit p.text) p.page _ 0 idx i c hc
    · push_neg at hi
      rw [List.get?_append_right hi] at hc
      have h2 := ih _ _ _ hc
      have h3 := chunkLoop_snd cs ov (pySplit p.text) p.page (pySplit p.text).length 0 idx
      omega

/-- Every chunk of the whole document run comes from the windowing loop of one
of the pages, at some incoming counter value. -/
theorem chunkPages_mem (cs ov : Nat) :
    ∀ pages idx c, c ∈ (chunkPages cs ov pages idx).1 →
      ∃ p ∈ pages, ∃ j, c ∈ pageChunks cs ov p j := by
  intro pages
  induction pages with
  | nil => intro idx c hc; simp [chunkPages] at hc
  | cons p ps ih =>
    intro idx c hc
    simp only [chunkPages] at hc
    rw [List.mem_append] at hc
    rcases hc with hc | hc
    · exact ⟨p, List.mem_cons_self p ps, idx, hc⟩
    · obtain ⟨q, hq, j, hcq⟩ := ih _ c hc
      exact ⟨q, List.mem_cons_of_mem p hq, j, hcq⟩

/-! ## Splitting and joining words -/

/-- Words produced by pySplit are nonempty and contain no whitespace. -/
theorem pySplitAux_good :
    ∀ (l acc : List Char), (∀ ch ∈ acc, isSpace ch = false) →
      ∀ w ∈ pySplitAux l acc, w ≠ [] ∧ ∀ ch ∈ w, isSpace ch = false := by
  intro l
  induction l with
  | nil =>
    intro acc hacc w hw
    simp only [pySplitAux] at hw
    split at hw
    · simp at hw
    · next hne =>
      simp at hw
      subst hw
      refine ⟨by simpa using hne, ?_⟩
      intro ch hch
      exact hacc ch (List.mem_reverse.mp hch)
  | cons c cs ih =>
    intro acc hacc w hw
    simp only [pySplitAux] at hw
    split at hw
    · split at hw
      · exact ih [] (by simp) w hw
      · next hne =>
        rcases List.mem_cons.mp hw with h | h
        · subst h
          refine ⟨by simpa using hne, ?_⟩
          intro ch hch
          exact hacc ch (List.mem_reverse.mp hch)
        · exact ih [] (by simp) w h
    · next hc =>
      refine ih (c :: acc) ?_ w hw
      intro ch hch
      rcases List.mem_cons.mp hch with h | h
      · subst h
        exact Bool.not_eq_true _ ▸ by simpa using hc
      · exact hacc ch h

/-- All words produced by pySplit are nonempty and whitespace-free. -/
theorem pySplit_good (s : List Char) :
    ∀ w ∈ pySplit s, w ≠ [] ∧ ∀ ch ∈ w, isSpace ch = false :=
  pySplitAux_good s [] (by simp)

/-- Scanning a whitespace-free word accumulates it. -/
theorem pySplitAux_word :
    ∀ (w : List Char), (∀ ch ∈ w, isSpace ch = false) →
      ∀ (l acc : List Char), pySplitAux (w ++ l) acc = pySplitAux l (w.reverse ++ acc) := by
  intro w
  induction w with
  | nil => intro _ l acc; simp
  | cons c cs ih =>
    intro hgood l acc
    have hc : isSpace c = false := hgood c (List.mem_cons_self c cs)
    have h0 : (c :: cs) ++ l = c :: (cs ++ l) := rfl
    rw [h0]
    simp only [pySplitAux, hc]
    rw [if_neg (by simp : ¬(false = true))]
    rw [ih (fun ch hch => hgood ch (List.mem_cons_of_mem c hch)) l (c :: acc)]
    simp

/-- Round trip: splitting the single-space join of nonempty, whitespace-free
words returns exactly those words. -/
theorem pySplit_joinWords :
    ∀ (ws : List (List Char)),
      (∀ w ∈ ws, w ≠ [] ∧ ∀ ch ∈ w, isSpace ch = false) →
      pySplit (joinWords ws) = ws := by
  intro ws
  induction ws with
  | nil => intro _; rfl
  | cons w tail ih =>
    intro hgood
    obtain ⟨hw, hwchars⟩ := hgood w (List.mem_cons_self w tail)
    cases tail with
    | nil =>
      show pySplitAux (joinWords [w]) [] = [w]
      have h1 : joinWords [w] = w ++ [] := by simp [joinWords]
      rw [h1, pySplitAux_word w hwchars [] []]
      simp [pySplitAux, hw]
    | cons x ws2 =>
      show pySplitAux (joinWords (w :: x :: ws2)) [] = w :: x :: ws2
      have h1 : joinWords (w :: x :: ws2) = w ++ ' ' :: joinWords (x :: ws2) := rfl
      rw [h1, pySplitAux_word w hwchars _ []]
      have hsp : isSpace ' ' = true := by decide
      simp only [pySplitAux, hsp, if_true, List.append_nil]
      have hrev : ¬ (w.reverse = []) := by simpa using hw
      rw [if_neg hrev]
      rw [List.reverse_reverse]
      have h2 := ih (fun u hu => hgood u (List.mem_cons_of_mem w hu))
      show w :: pySplit (joinWords (x :: ws2)) = w :: x :: ws2
      rw [h2]

/-- getLast? of a cons with nonempty tail is getLast? of the tail. -/
theorem getLastQ_cons_ne {α : Type} (a : α) (l : List α) (h : l ≠ []) :
    (a :: l).getLast? = l.getLast? := by
  cases l with
  | nil => exact absurd rfl h
  | cons b t => exact List.getLast?_cons_cons

/-- The first chunk a loop run emits starts at the incoming cursor. -/
theorem chunkLoop_head_start (cs ov : Nat) (words : List (List Char)) (pg : Nat) :
    ∀ fuel start idx c,
      ((chunkLoop cs ov words pg fuel start idx).1).get? 0 = some c →
      c.word_start = start := by
  intro fuel
  cases fuel with
  | zero => intro start idx c hc; simp [chunkLoop] at hc
  | succ f =>
    intro start idx c hc
    simp only [chunkLoop] at hc
    split at hc
    · split at hc
      · simp at hc; subst hc; rfl
      · simp only [List.get?_cons_zero] at hc
        injection hc with hc
        subst hc; rfl
    · simp at hc

/-- Coverage invariant: started below the word count with sufficient fuel,
the loop covers every word position from the cursor to the end of the page,
and the last chunk ends exactly at the word count. -/
theorem chunkLoop_cover (cs ov : Nat) (words : List (List Char)) (pg : Nat)
    (hcs : ov < cs) :
    ∀ fuel start idx, words.length - start ≤ fuel → start < words.length →
      (∀ k, start ≤ k → k < words.length →
        ∃ c ∈ (chunkLoop cs ov words pg fuel start idx).1,
          c.word_start ≤ k ∧ k < c.word_end)
      ∧ ∃ la, ((chunkLoop cs ov words pg fuel start idx).1).getLast? = some la
          ∧ la.word_end = words.length := by
  intro fuel
  induction fuel with
  | zero => intro start idx hfuel hs; omega
  | succ f ih =>
    intro start idx hfuel hs
    simp only [chunkLoop]
    rw [if_pos hs]
    by_cases he : min (start + cs) words.length = words.length
    · rw [if_pos he]
      constructor
      · intro k hk1 hk2
        refine ⟨_, List.mem_singleton_self _, hk1, ?_⟩
        show k < min (start + cs) words.length
        rw [he]; exact hk2
      · refine ⟨_, List.getLast?_singleton _, ?_⟩
        show min (start + cs) words.length = words.length
        exact he
    · rw [if_neg he]
      have hlt : start + cs < words.length := by
        by_contra hge
        exact he (Nat.min_eq_right (by omega))
      have hs2 : start + (cs - ov) < words.length := by omega
      have hf2 : words.length - (start + (cs - ov)) ≤ f := by omega
      obtain ⟨hcov, la, hla, hlae⟩ := ih (start + (cs - ov)) (idx + 1) hf2 hs2
      constructor
      · intro k hk1 hk2
        by_cases hke : k < min (start + cs) words.length
        · exact ⟨_, List.mem_cons_self _ _, hk1, hke⟩
        · push_neg at hke
          rw [Nat.min_eq_left (Nat.le_of_lt hlt)] at hke
          have hk3 : start + (cs - ov) ≤ k := by omega
          obtain ⟨c, hc, h1, h2⟩ := hcov k hk3 hk2
          exact ⟨c, List.mem_cons_of_mem _ hc, h1, h2⟩
      · have hne : (chunkLoop cs ov words pg f (start + (cs - ov)) (idx + 1)).1 ≠ [] := by
          intro hnil
          rw [hnil] at hla
          simp at hla
        refine ⟨la, ?_, hlae⟩
        rw [getLastQ_cons_ne _ _ hne]
        exact hla

/-- Consecutive-pair invariant: whenever a chunk is followed by another one in
the same loop run, the follower starts exactly one stride `cs - ov` later,
and the leader has the full window width and ends strictly before the page
end. -/
theorem chunkLoop_pair (cs ov : Nat) (words : List (List Char)) (pg : Nat)
    (hcs : ov < cs) :
    ∀ fuel start idx i c d,
      words.length - start ≤ fuel →
      ((chunkLoop cs ov words pg fuel start idx).1).get? i = some c →
      ((chunkLoop cs ov words pg fuel start idx).1).get? (i + 1) = some d →
      d.word_start = c.word_start + (cs - ov)
      ∧ c.word_end = c.word_start + cs
      ∧ c.word_end < words.length := by
  intro fuel
  induction fuel with
  | zero => intro start idx i c d hf hc hd; simp [chunkLoop] at hc
  | succ f ih =>
    intro start idx i c d hf hc hd
    simp only [chunkLoop] at hc hd
    by_cases hs : start < words.length
    · rw [if_pos hs] at hc hd
      by_cases he : min (start + cs) words.length = words.length
      · rw [if_pos he] at hd
        cases i with
        | zero => simp at hd
        | succ j => simp at hd
      · rw [if_neg he] at hc hd
        have hlt : start + cs < words.length := by
          by_contra hge
          exact he (Nat.min_eq_right (by omega))
        have hf2 : words.length - (start + (cs - ov)) ≤ f := by omega
        cases i with
        | zero =>
          rw [List.get?_cons_zero] at hc
          injection hc with hc
          subst hc
          rw [List.get?_cons_succ] at hd
          have hdw := chunkLoop_head_start cs ov words pg f _ _ d hd
          refine ⟨hdw, ?_, ?_⟩
          · show min (start + cs) words.length = start + cs
            exact Nat.min_eq_left (Nat.le_of_lt hlt)
          · show min (start + cs) words.length < words.length
            rw [Nat.min_eq_left (Nat.le_of_lt hlt)]
            exact hlt
        | succ j =>
          rw [List.get?_cons_succ] at hc hd
          exact ih _ _ j c d hf2 hc hd
    · rw [if_neg hs] at hc
      simp at hc

/-! ## Facts about the store writer -/

/-- The batches concatenate back to the original record list. -/
theorem toBatches128_flatten {α : Type} : ∀ (n : Nat) (l : List α), l.length ≤ n →
    (toBatches128 l).flatten = l := by
  intro n
  induction n with
  | zero =>
    intro l hl
    have h0 : l = [] := List.eq_nil_of_length_eq_zero (by omega)
    subst h0
    rw [toBatches128]
    rfl
  | succ m ih =>
    intro l hl
    cases l with
    | nil => rw [toBatches128]; rfl
    | cons a t =>
      rw [toBatches128, List.flatten_cons]
      rw [ih ((a :: t).drop 128)
        (by simp only [List.length_drop, List.length_cons] at hl ⊢; omega)]
      exact List.take_append_drop 128 (a :: t)

/-- Folding batch upserts over a batch list is one batch upsert of the
concatenation. -/
theorem foldl_upsertBatch_flatten :
    ∀ (bs : List (List (List Char × StoredRec))) (S : Store),
      bs.foldl upsertBatch S = upsertBatch S bs.flatten := by
  intro bs
  induction bs with
  | nil => intro S; rfl
  | cons b rest ih =>
    intro S
    rw [List.foldl_cons, ih, List.flatten_cons]
    unfold upsertBatch
    rw [List.foldl_append]

/-- The batched upsert of embed_and_store equals the single upsert of the
whole record list: batch boundaries leave no trace in the final state. -/
theorem embed_and_store_unbatched (emb : List Char → List Int) (S : Store)
    (chunks : List Chunk) (src : List Char) :
    embed_and_store emb S chunks src = upsertBatch S (recordsOf emb src chunks) := by
  unfold embed_and_store
  rw [foldl_upsertBatch_flatten,
    toBatches128_flatten (recordsOf emb src chunks).length _ (le_refl _)]

/-- The id column after one record upsert: unchanged when the id is present,
extended by the id otherwise. -/
theorem upsertOne_ids (S : Store) (r : List Char × StoredRec) :
    (upsertOne S r).map Prod.fst
      = if r.1 ∈ S.map Prod.fst then S.map Prod.fst
        else S.map Prod.fst ++ [r.1] := by
  unfold upsertOne
  by_cases hmem : r.1 ∈ S.map Prod.fst
  · have hany : S.any (fun q => decide (q.1 = r.1)) = true := by
      rw [List.any_eq_true]
      obtain ⟨q, hq, hqe⟩ := List.mem_map.mp hmem
      exact ⟨q, hq, by simp [hqe]⟩
    rw [if_pos hany, if_pos hmem, List.map_map]
    apply List.map_congr_left
    intro q hq
    by_cases h : q.1 = r.1
    · simp [h]
    · simp [h]
  · have hany : ¬ (S.any (fun q => decide (q.1 = r.1)) = true) := by
      rw [List.any_eq_true]
      rintro ⟨q, hq, hqe⟩
      rw [decide_eq_true_eq] at hqe
      exact hmem (hqe ▸ List.mem_map_of_mem Prod.fst hq)
    rw [if_neg hany, if_neg hmem, List.map_append]
    rfl

/-- Ids present in the store stay present across a record upsert. -/
theorem upsertOne_ids_mono (S : Store) (r : List Char × StoredRec)
    (a : List Char) (ha : a ∈ S.map Prod.fst) :
    a ∈ (upsertOne S r).map Prod.fst := by
  rw [upsertOne_ids]
  split
  · exact ha
  · exact List.mem_append_left _ ha

/-- The upserted id is present afterwards. -/
theorem upsertOne_ids_self (S : Store) (r : List Char × StoredRec) :
    r.1 ∈ (upsertOne S r).map Prod.fst := by
  rw [upsertOne_ids]
  split
  · next h => exact h
  · exact List.mem_append_right _ (List.mem_singleton_self _)

/-- Ids present in the store stay present across a batch upsert. -/
theorem upsertBatch_ids_mono :
    ∀ (recs : List (List Char × StoredRec)) (S : Store) (a : List Char),
      a ∈ S.map Prod.fst → a ∈ (upsertBatch S recs).map Prod.fst := by
  intro recs
  induction recs with
  | nil => intro S a ha; exact ha
  | cons r rest ih =>
    intro S a ha
    exact ih (upsertOne S r) a (upsertOne_ids_mono S r a ha)

/-- Every id of the upserted batch is present afterwards. -/
theorem upsertBatch_ids_of_recs :
    ∀ (recs : List (List Char × StoredRec)) (S : Store) (r : List Char × StoredRec),
      r ∈ recs → r.1 ∈ (upsertBatch S recs).map Prod.fst := by
  intro recs
  induction recs with
  | nil => intro S r hr; simp at hr
  | cons q rest ih =>
    intro S r hr
    rcases List.mem_cons.mp hr with h | h
    · subst h
      exact upsertBatch_ids_mono rest (upsertOne S r) r.1 (upsertOne_ids_self S r)
    · exact ih (upsertOne S q) r h

/-- Upserting records whose ids are all already present leaves the id column
unchanged: no record is added, none removed, none reordered. -/
theorem upsertBatch_ids_of_present :
    ∀ (recs : List (List Char × StoredRec)) (S : Store),
      (∀ r ∈ recs, r.1 ∈ S.map Prod.fst) →
      (upsertBatch S recs).map Prod.fst = S.map Prod.fst := by
  intro recs
  induction recs with
  | nil => intro S _; rfl
  | cons r rest ih =>
    intro S hall
    have h1 : (upsertOne S r).map Prod.fst = S.map Prod.fst := by
      rw [upsertOne_ids, if_pos (hall r (List.mem_cons_self r rest))]
    have h2 : ∀ q ∈ rest, q.1 ∈ (upsertOne S r).map Prod.fst := by
      intro q hq
      rw [h1]
      exact hall q (List.mem_cons_of_mem r hq)
    show (upsertBatch (upsertOne S r) rest).map Prod.fst = S.map Prod.fst
    rw [ih (upsertOne S r) h2, h1]

/-- With chunk_size = overlap = 2 on a three-word page, the cursor advance
`cs - ov` is zero, so every loop iteration re-emits the window at the same
cursor: the loop emits one chunk per unit of fuel and never reaches its
exit. -/
theorem chunkLoop_stuck : ∀ (fuel idx : Nat),
    ((chunkLoop 2 2 [['a'], ['b'], ['c']] 1 fuel 0 idx).1).length = fuel := by
  intro fuel
  induction fuel with
  | zero => intro idx; rfl
  | succ f ih =>
    intro idx
    simp only [chunkLoop, List.length_cons, List.length_nil]
    norm_num
    exact ih (idx + 1)

/-! ## Claims -/

/-- Claim C1 (code bug in src/ingest_pdf.py): the spec requires a
configuration with overlap >= chunk_size (or non-positive chunk_size) to be
rejected before any processing, but main validates only path existence: for
every chunk_size and overlap value, including overlap >= chunk_size, the
pre-processing check proceeds into the pipeline, and the chunking loop, once
entered with chunk_size - overlap = 0, emits chunks forever (one per unit of
fuel) instead of terminating. -/
theorem main_proceeds_unvalidated_and_loop_diverges :
    (∀ chunk_size overlap : Int,
      mainPrecheck true ("doc.pdf").toList chunk_size overlap = CliOutcome.proceeds)
    ∧ ∀ fuel, ((chunkLoop 2 2 (pySplit demoPage3.text) 1 fuel 0 0).1).length = fuel := by
  constructor
  · intro chunk_size overlap
    rfl
  · intro fuel
    exact chunkLoop_stuck fuel 0

/-- Claim C2: for a page whose text splits into n > 0 words, with
0 < overlap < chunk_size, the ranges [word_start, word_end) of the chunks
emitted for that page cover [0, n) with no gaps and the last chunk ends
exactly at n. -/
theorem chunk_ranges_cover_page (cs ov idx : Nat) (p : PageRec)
    (h0 : 0 < ov) (h1 : ov < cs) (hn : 0 < (pySplit p.text).length) :
    (∀ k, k < (pySplit p.text).length →
      ∃ c ∈ pageChunks cs ov p idx, c.word_start ≤ k ∧ k < c.word_end)
    ∧ (∀ c ∈ pageChunks cs ov p idx, c.word_end ≤ (pySplit p.text).length)
    ∧ ∃ la, (pageChunks cs ov p idx).getLast? = some la
        ∧ la.word_end = (pySplit p.text).length := by
  obtain ⟨hcov, hlast⟩ := chunkLoop_cover cs ov (pySplit p.text) p.page h1
    (pySplit p.text).length 0 idx (by omega) hn
  refine ⟨fun k hk => hcov k (Nat.zero_le k) hk, ?_, hlast⟩
  intro c hc
  obtain ⟨-, -, -, hwe, -⟩ :=
    chunkLoop_shape cs ov (pySplit p.text) p.page _ 0 idx c hc
  rw [hwe]
  exact Nat.min_le_right _ _

theorem chunk_ranges_cover_page_witness :
    (0 < 1 ∧ 1 < 2 ∧ 0 < (pySplit demoPage3.text).length)
    ∧ ((∀ k, k < (pySplit demoPage3.text).length →
        ∃ c ∈ pageChunks 2 1 demoPage3 0, c.word_start ≤ k ∧ k < c.word_end)
      ∧ (∀ c ∈ pageChunks 2 1 demoPage3 0,
          c.word_end ≤ (pySplit demoPage3.text).length)
      ∧ ∃ la, (pageChunks 2 1 demoPage3 0).getLast? = some la
          ∧ la.word_end = (pySplit demoPage3.text).length) :=
  ⟨⟨by decide, by decide, by decide⟩,
    chunk_ranges_cover_page 2 1 0 demoPage3 (by decide) (by decide) (by decide)⟩

/-- Claim C3: re-running ingestion with identical parameters on the unchanged
document leaves the id column of the collection unchanged: the chunker
deterministically reproduces every chunk_id and upsert replaces by id, so the
second run creates no record and removes none. -/
theorem reingest_preserves_ids (emb : List Char → List Int) (S : Store)
    (pages : List PageRec) (cs ov : Nat) (src : List Char) :
    (embed_and_store emb
        (embed_and_store emb S (chunk_text pages cs ov) src)
        (chunk_text pages cs ov) src).map Prod.fst
      = (embed_and_store emb S (chunk_text pages cs ov) src).map Prod.fst := by
  rw [embed_and_store_unbatched, embed_and_store_unbatched]
  apply upsertBatch_ids_of_present
  intro r hr
  exact upsertBatch_ids_of_recs _ S r hr

/-- Claim C4: the final state of the batched upserts of embed_and_store
(batch size 128) equals upserting the whole record list as one batch: batch
boundaries cause no duplication, omission or reordering in the stored
result. -/
theorem embed_and_store_eq_single_batch (emb : List Char → List Int) (S : Store)
    (chunks : List Chunk) (src : List Char) :
    embed_and_store emb S chunks src = upsertBatch S (recordsOf emb src chunks) :=
  embed_and_store_unbatched emb S chunks src

/-- Claim C5: the i-th chunk of the whole document run of chunk_text carries
chunk_index i (the counter starts at 0, increases by exactly 1 per chunk and
never resets at page boundaries, including across pages contributing no
chunks), and its chunk_id is the string p<page>_c<chunk_index> formed from its
own page and chunk_index fields. -/
theorem chunk_index_global_and_id_format (pages : List PageRec) (cs ov i : Nat)
    (c : Chunk) (h : (chunk_text pages cs ov).get? i = some c) :
    c.chunk_index = i ∧ c.chunk_id = chunkId c.page c.chunk_index := by
  constructor
  · have := chunkPages_index cs ov pages 0 i c h
    omega
  · have hmem : c ∈ chunk_text pages cs ov := List.get?_mem h
    obtain ⟨p, hp, j, hcj⟩ := chunkPages_mem cs ov pages 0 c hmem
    obtain ⟨hpg, hid, -, -, -⟩ :=
      chunkLoop_shape cs ov (pySplit p.text) p.page _ 0 j c hcj
    rw [hpg]
    exact hid

theorem chunk_index_global_and_id_format_witness :
    (chunk_text [demoPage3, demoPage7] 2 1).get? 2
      = some ⟨chunkId 1 2, ['a', ' ', 'b'], 1, 2, 0, 2⟩
    ∧ ((⟨chunkId 1 2, ['a', ' ', 'b'], 1, 2, 0, 2⟩ : Chunk).chunk_index = 2
      ∧ (⟨chunkId 1 2, ['a', ' ', 'b'], 1, 2, 0, 2⟩ : Chunk).chunk_id
        = chunkId (⟨chunkId 1 2, ['a', ' ', 'b'], 1, 2, 0, 2⟩ : Chunk).page
            (⟨chunkId 1 2, ['a', ' ', 'b'], 1, 2, 0, 2⟩ : Chunk).chunk_index) :=
  ⟨by decide,
    chunk_index_global_and_id_format [demoPage3, demoPage7] 2 1 2 _ (by decide)⟩

/-- Claim C6 counterexample: with chunk_size = 3, overlap = 1 on a seven-word
page the first two emitted ranges are [0, 3) and [2, 5); the pair is not the
final range of the page (there are three chunks), yet the intersection has
size 1, not chunk_size - overlap = 2.  The claim that consecutive ranges
overlap by exactly chunk_size - overlap words is false on the code. -/
theorem consecutive_overlap_not_size_minus_overlap :
    (pageChunks 3 1 demoPage7 0).length = 3
    ∧ (pageChunks 3 1 demoPage7 0).get? 0
        = some ⟨chunkId 1 0, ['a', ' ', 'b', ' ', 'c'], 1, 0, 0, 3⟩
    ∧ (pageChunks 3 1 demoPage7 0).get? 1
        = some ⟨chunkId 1 1, ['c', ' ', 'd', ' ', 'e'], 1, 1, 2, 5⟩
    ∧ 0 + 1 ≠ (pageChunks 3 1 demoPage7 0).length - 1
    ∧ interOverlap ⟨chunkId 1 0, ['a', ' ', 'b', ' ', 'c'], 1, 0, 0, 3⟩
        ⟨chunkId 1 1, ['c', ' ', 'd', ' ', 'e'], 1, 1, 2, 5⟩ ≠ 3 - 1 := by
  decide

/-- Claim C6 as amended: with 0 < overlap < chunk_size, each pair of
consecutive chunk ranges emitted for a page overlaps by exactly `overlap`
words (the intersection of the two [word_start, word_end) ranges has size
`overlap`), the final pair included. -/
theorem consecutive_overlap_eq_overlap (cs ov idx i : Nat) (p : PageRec)
    (c d : Chunk) (h0 : 0 < ov) (h1 : ov < cs)
    (hc : (pageChunks cs ov p idx).get? i = some c)
    (hd : (pageChunks cs ov p idx).get? (i + 1) = some d) :
    interOverlap c d = ov := by
  obtain ⟨hds, hce, hcn⟩ := chunkLoop_pair cs ov (pySplit p.text) p.page h1
    (pySplit p.text).length 0 idx i c d (by omega) hc hd
  obtain ⟨-, -, -, hde, -⟩ := chunkLoop_shape cs ov (pySplit p.text) p.page
    (pySplit p.text).length 0 idx d (List.get?_mem hd)
  have h2 : c.word_end ≤ d.word_end := by
    rw [hde]
    exact le_min (by omega) (Nat.le_of_lt hcn)
  have h3 : c.word_start ≤ d.word_start := by omega
  unfold interOverlap
  rw [Nat.min_eq_left h2, Nat.max_eq_right h3]
  omega

theorem consecutive_overlap_eq_overlap_witness :
    (0 < 1 ∧ 1 < 3
      ∧ (pageChunks 3 1 demoPage7 0).get? 0
          = some ⟨chunkId 1 0, ['a', ' ', 'b', ' ', 'c'], 1, 0, 0, 3⟩
      ∧ (pageChunks 3 1 demoPage7 0).get? 1
          = some ⟨chunkId 1 1, ['c', ' ', 'd', ' ', 'e'], 1, 1, 2, 5⟩)
    ∧ interOverlap ⟨chunkId 1 0, ['a', ' ', 'b', ' ', 'c'], 1, 0, 0, 3⟩
        ⟨chunkId 1 1, ['c', ' ', 'd', ' ', 'e'], 1, 1, 2, 5⟩ = 1 :=
  ⟨⟨by decide, by decide, by decide, by decide⟩,
    consecutive_overlap_eq_overlap 3 1 0 0 demoPage7 _ _ (by decide) (by decide)
      (by decide) (by decide)⟩

/-- Claim C7: with 0 < overlap < chunk_size, a chunk followed by another one
on the same page starts the follower exactly chunk_size - overlap words
later.  In the code the stride is exact for every consecutive pair, the last
chunk of a page included, which implies the claim (its allowance for a
shorter final stride is never exercised). -/
theorem consecutive_start_stride (cs ov idx i : Nat) (p : PageRec)
    (c d : Chunk) (h0 : 0 < ov) (h1 : ov < cs)
    (hc : (pageChunks cs ov p idx).get? i = some c)
    (hd : (pageChunks cs ov p idx).get? (i + 1) = some d) :
    d.word_start = c.word_start + (cs - ov) :=
  (chunkLoop_pair cs ov (pySplit p.text) p.page h1
    (pySplit p.text).length 0 idx i c d (by omega) hc hd).1

theorem consecutive_start_stride_witness :
    (0 < 1 ∧ 1 < 3
      ∧ (pageChunks 3 1 demoPage7 0).get? 0
          = some ⟨chunkId 1 0, ['a', ' ', 'b', ' ', 'c'], 1, 0, 0, 3⟩
      ∧ (pageChunks 3 1 demoPage7 0).get? 1
          = some ⟨chunkId 1 1, ['c', ' ', 'd', ' ', 'e'], 1, 1, 2, 5⟩)
    ∧ (⟨chunkId 1 1, ['c', ' ', 'd', ' ', 'e'], 1, 1, 2, 5⟩ : Chunk).word_start
        = (⟨chunkId 1 0, ['a', ' ', 'b', ' ', 'c'], 1, 0, 0, 3⟩ : Chunk).word_start
          + (3 - 1) :=
  ⟨⟨by decide, by decide, by decide, by decide⟩,
    consecutive_start_stride 3 1 0 0 demoPage7 _ _ (by decide) (by decide)
      (by decide) (by decide)⟩

/-- Claim C8: every chunk emitted by chunk_text comes from one of the pages,
with word_end = min (word_start + chunk_size) n for that page word count n,
text equal to the page words [word_start, word_end) joined by single spaces,
and splitting the chunk text on whitespace returns exactly that word slice,
whose length is word_end - word_start. -/
theorem chunk_fields_from_page (pages : List PageRec) (cs ov : Nat) (c : Chunk)
    (h : c ∈ chunk_text pages cs ov) :
    ∃ p ∈ pages, c.page = p.page
      ∧ c.word_end = min (c.word_start + cs) (pySplit p.text).length
      ∧ c.text = joinWords
          (((pySplit p.text).drop c.word_start).take (c.word_end - c.word_start))
      ∧ pySplit c.text
          = ((pySplit p.text).drop c.word_start).take (c.word_end - c.word_start)
      ∧ (pySplit c.text).length = c.word_end - c.word_start := by
  obtain ⟨p, hp, j, hcj⟩ := chunkPages_mem cs ov pages 0 c h
  obtain ⟨hpg, -, hws, hwe, htext⟩ :=
    chunkLoop_shape cs ov (pySplit p.text) p.page _ 0 j c hcj
  have hresplit : pySplit c.text
      = ((pySplit p.text).drop c.word_start).take (c.word_end - c.word_start) := by
    rw [htext]
    apply pySplit_joinWords
    intro w hw
    exact pySplit_good p.text w (List.drop_subset _ _ (List.take_subset _ _ hw))
  refine ⟨p, hp, hpg, hwe, htext, hresplit, ?_⟩
  rw [hresplit, List.length_take, List.length_drop]
  have hwen : c.word_end ≤ (pySplit p.text).length := by
    rw [hwe]
    exact Nat.min_le_right _ _
  rw [Nat.min_eq_left (by omega)]

theorem chunk_fields_from_page_witness :
    (⟨chunkId 1 0, ['a', ' ', 'b'], 1, 0, 0, 2⟩ : Chunk) ∈ chunk_text [demoPage3] 2 1
    ∧ ∃ p ∈ [demoPage3],
        (⟨chunkId 1 0, ['a', ' ', 'b'], 1, 0, 0, 2⟩ : Chunk).page = p.page
        ∧ (⟨chunkId 1 0, ['a', ' ', 'b'], 1, 0, 0, 2⟩ : Chunk).word_end
            = min ((⟨chunkId 1 0, ['a', ' ', 'b'], 1, 0, 0, 2⟩ : Chunk).word_start + 2)
                (pySplit p.text).length
        ∧ (⟨chunkId 1 0, ['a', ' ', 'b'], 1, 0, 0, 2⟩ : Chunk).text = joinWords
            (((pySplit p.text).drop
                (⟨chunkId 1 0, ['a', ' ', 'b'], 1, 0, 0, 2⟩ : Chunk).word_start).take
              ((⟨chunkId 1 0, ['a', ' ', 'b'], 1, 0, 0, 2⟩ : Chunk).word_end
                - (⟨chunkId 1 0, ['a', ' ', 'b'], 1, 0, 0, 2⟩ : Chunk).word_start))
        ∧ pySplit (⟨chunkId 1 0, ['a', ' ', 'b'], 1, 0, 0, 2⟩ : Chunk).text
            = ((pySplit p.text).drop
                (⟨chunkId 1 0, ['a', ' ', 'b'], 1, 0, 0, 2⟩ : Chunk).word_start).take
              ((⟨chunkId 1 0, ['a', ' ', 'b'], 1, 0, 0, 2⟩ : Chunk).word_end
                - (⟨chunkId 1 0, ['a', ' ', 'b'], 1, 0, 0, 2⟩ : Chunk).word_start)
        ∧ (pySplit (⟨chunkId 1 0, ['a', ' ', 'b'], 1, 0, 0, 2⟩ : Chunk).text).length
            = (⟨chunkId 1 0, ['a', ' ', 'b'], 1, 0, 0, 2⟩ : Chunk).word_end
              - (⟨chunkId 1 0, ['a', ' ', 'b'], 1, 0, 0, 2⟩ : Chunk).word_start :=
  ⟨by decide, chunk_fields_from_page [demoPage3] 2 1 _ (by decide)⟩

/-- Claim C9: with chunk_size - overlap > 0 the per-page windowing loop
terminates: the cursor strictly advances each iteration, the result is
already final at fuel equal to the page word count (extra fuel changes
nothing), and at most one chunk per word is emitted. -/
theorem chunkLoop_fuel_sufficient (cs ov : Nat) (words : List (List Char))
    (pg idx : Nat) (h : ov < cs) :
    0 < cs - ov
    ∧ (∀ extra, chunkLoop cs ov words pg (words.length + extra) 0 idx
        = chunkLoop cs ov words pg words.length 0 idx)
    ∧ ((chunkLoop cs ov words pg words.length 0 idx).1).length ≤ words.length :=
  ⟨by omega,
    fun extra =>
      chunkLoop_fuel_add cs ov words pg h words.length 0 idx (by omega) extra,
    chunkLoop_length_le cs ov words pg words.length 0 idx⟩

theorem chunkLoop_fuel_sufficient_witness :
    (1 < 2)
    ∧ (0 < 2 - 1
      ∧ (∀ extra, chunkLoop 2 1 (pySplit demoPage3.text) 1 ((pySplit demoPage3.text).length + extra) 0 0
          = chunkLoop 2 1 (pySplit demoPage3.text) 1 (pySplit demoPage3.text).length 0 0)
      ∧ ((chunkLoop 2 1 (pySplit demoPage3.text) 1 (pySplit demoPage3.text).length 0 0).1).length
          ≤ (pySplit demoPage3.text).length) :=
  ⟨by decide, chunkLoop_fuel_sufficient 2 1 (pySplit demoPage3.text) 1 0 (by decide)⟩

/-- Claim C10 (code bug in src/ingest_pdf.py): the spec requires extraction
failures to surface as DocumentReadError and every failure path to name one
of four error kinds, but the code defines none of the four classes:
extract_text has no error handling, so a parse failure propagates as the raw
library exception, and the only failure main itself reports is the generic
file-not-found exit; no failure path can name an error kind that does not
exist in the program. -/
theorem extract_error_untranslated :
    extract_text (PdfReadResult.libError ("EOF marker not found").toList)
      = Except.error (("EOF marker not found").toList)
    ∧ mainPrecheck false ("missing.pdf").toList 512 128
        = CliOutcome.exitError
            ((("[ingest] File not found: ").toList) ++ ("missing.pdf").toList) :=
  ⟨rfl, rfl⟩
